import Mathlib

/-!
Shallow embedding of the cache simulator `src/csim.c` (michaelc143/CacheSimulator).

The C program keeps a cache of `S = 2^s` sets, each an array of `E` lines
(`cache_line_t`: a valid bit, a tag, and an `lru` stamp), plus four global
counters `hit_cnt`, `miss_cnt`, `evict_cnt` and `lru_count`.  The function
`access_data` decomposes an address into a tag and a set index, scans the
selected set for a hit, otherwise fills the first invalid line, otherwise
evicts the first line attaining the minimal `lru` stamp.

The embedding below models machine words as `Nat` (the C type is
`unsigned long long`; all the bit arithmetic performed by the program is
non-overflowing for the geometries it accepts, so `Nat` semantics agree),
arrays as `List`, and the global state as an explicit `SimState` record
threaded through `access_data`.
-/

/-- One cache line, mirroring `cache_line_t` in csim.c: a valid flag, a tag,
and an integer `lru` recency stamp. -/
structure Line where
  valid : Bool
  tag : Nat
  lru : Nat
deriving DecidableEq, Repr

/-- A cache set is an array of lines (`cache_set_t`). -/
abbrev CSet := List Line

/-- The all-zero line that `init_cache` stores in every slot. -/
def line0 : Line := ⟨false, 0, 0⟩

/-- Read line `i` of a set; out-of-range reads return the all-zero line.
The C program never reads out of range (see the bounds theorem below). -/
def lineAt (cs : CSet) (i : Nat) : Line := cs.getD i line0

/-- Read set `i` of a cache; out-of-range reads return the empty set.
The C program never reads out of range (see the bounds theorem below). -/
def setAt (c : List CSet) (i : Nat) : CSet := c.getD i []

/-- The global mutable state of csim.c relevant to `access_data`: the cache
storage and the counters `hit_cnt`, `miss_cnt`, `evict_cnt`, `lru_count`. -/
structure SimState where
  cache : List CSet
  hit_cnt : Nat
  miss_cnt : Nat
  evict_cnt : Nat
  lru_count : Nat
deriving DecidableEq, Repr

/-- Mirrors `init_cache`: `S = 2^s` sets of `E` lines, every line
zero-initialized (`valid = 0`, `tag = 0`, `lru = 0`). -/
def init_cache (s E : Nat) : List CSet :=
  List.replicate (2 ^ s) (List.replicate E line0)

/-- The state of the program right after `init_cache`: fresh cache and all
four global counters at 0. -/
def initState (s E : Nat) : SimState :=
  ⟨init_cache s E, 0, 0, 0, 0⟩

/-- Mirrors line 116 of csim.c: `tag = addr >> (s+b)`. -/
def tagOf (s b addr : Nat) : Nat := addr >>> (s + b)

/-- Mirrors line 117 of csim.c: `currSet = (addr - (tag << (s+b))) >> b`. -/
def setIdxOf (s b addr : Nat) : Nat :=
  (addr - (tagOf s b addr <<< (s + b))) >>> b

/-- Index of the first line satisfying `p`, scanning in storage order;
models the early-return `for` loops of `access_data`. -/
def findFirst (p : Line → Bool) : CSet → Option Nat
  | [] => none
  | l :: ls => if p l then some 0 else (findFirst p ls).map (fun i => i + 1)

/-- The hit scan of `access_data` (lines 118-125): first line whose tag
matches and whose valid bit is set. -/
def findHit (t : Nat) (cs : CSet) : Option Nat :=
  findFirst (fun l => l.tag == t && l.valid) cs

/-- The cold-miss scan of `access_data` (lines 127-134): first invalid line. -/
def findCold (cs : CSet) : Option Nat :=
  findFirst (fun l => !l.valid) cs

/-- The eviction scan of `access_data` (lines 136-140) after processing loop
indices `0 .. n-1`: `line` starts at 0 and is replaced by `i` whenever
`lru[i] < lru[line]` (strict), so the first minimum encountered wins. -/
def evictLoop (cs : CSet) : Nat → Nat
  | 0 => 0
  | n + 1 =>
    if (lineAt cs n).lru < (lineAt cs (evictLoop cs n)).lru then n
    else evictLoop cs n

/-- The complete eviction scan: run `evictLoop` over the whole set. -/
def evictScan (cs : CSet) : Nat := evictLoop cs cs.length

/-- Mirrors `access_data` (lines 115-143 of csim.c).  Hit: stamp the matched
line with the current `lru_count`, then increment `hit_cnt` and `lru_count`.
Miss: increment `miss_cnt`; fill the first invalid line if one exists
(stamping the current `lru_count`, not incrementing it), else increment
`evict_cnt` and overwrite the first minimal-`lru` line (again stamping the
current, un-incremented `lru_count`). -/
def access_data (s b addr : Nat) (st : SimState) : SimState :=
  match findHit (tagOf s b addr) (setAt st.cache (setIdxOf s b addr)) with
  | some i =>
    { st with
      cache := st.cache.set (setIdxOf s b addr)
        ((setAt st.cache (setIdxOf s b addr)).set i
          { lineAt (setAt st.cache (setIdxOf s b addr)) i with
              lru := st.lru_count }),
      hit_cnt := st.hit_cnt + 1,
      lru_count := st.lru_count + 1 }
  | none =>
    match findCold (setAt st.cache (setIdxOf s b addr)) with
    | some i =>
      { st with
        cache := st.cache.set (setIdxOf s b addr)
          ((setAt st.cache (setIdxOf s b addr)).set i
            ⟨true, tagOf s b addr, st.lru_count⟩),
        miss_cnt := st.miss_cnt + 1 }
    | none =>
      { st with
        cache := st.cache.set (setIdxOf s b addr)
          ((setAt st.cache (setIdxOf s b addr)).set
            (evictScan (setAt st.cache (setIdxOf s b addr)))
            { lineAt (setAt st.cache (setIdxOf s b addr))
                (evictScan (setAt st.cache (setIdxOf s b addr))) with
                tag := tagOf s b addr,
                lru := st.lru_count }),
        miss_cnt := st.miss_cnt + 1,
        evict_cnt := st.evict_cnt + 1 }

/-- Run `access_data` over a list of addresses in order (the sequence of
calls `replay_trace` issues for the data accesses of a trace). -/
def runTrace (s b : Nat) (st : SimState) : List Nat → SimState
  | [] => st
  | a :: rest => runTrace s b (access_data s b a st) rest

/-- Accumulate the distinct values of a list in first-occurrence order,
starting from an already-seen prefix; used to count the distinct tags a
trace presents to one set. -/
def collect (seen : List Nat) : List Nat → List Nat
  | [] => seen
  | t :: ts => if t ∈ seen then collect seen ts else collect (seen ++ [t]) ts

/-- The per-set invariant of the cache: two distinct valid lines of a set
never hold the same tag. -/
def goodSet (cs : CSet) : Prop :=
  ∀ i, i < cs.length → ∀ j, j < cs.length → i ≠ j →
    (lineAt cs i).valid = true → (lineAt cs j).valid = true →
    (lineAt cs i).tag ≠ (lineAt cs j).tag

instance goodSet_decidable (cs : CSet) : Decidable (goodSet cs) := by
  unfold goodSet
  exact Nat.decidableBallLT (cs.length) (fun i hi =>
    ∀ j, j < cs.length → i ≠ j →
      (lineAt cs i).valid = true → (lineAt cs j).valid = true →
      (lineAt cs i).tag ≠ (lineAt cs j).tag)

/-- Invariant for the single-set fill argument: set `idx` of the cache has
exactly `E` lines, its first `seen.length` lines are valid and hold the
distinct tags of `seen` in first-occurrence order, and all further lines
are still invalid. -/
def fillInv (E idx : Nat) (seen : List Nat) (st : SimState) : Prop :=
  idx < st.cache.length ∧
  (setAt st.cache idx).length = E ∧
  seen.length ≤ E ∧
  (∀ i, i < E →
    ((lineAt (setAt st.cache idx) i).valid = true ↔ i < seen.length)) ∧
  (∀ i, i < seen.length →
    (lineAt (setAt st.cache idx) i).tag = seen.getD i 0)

/-- The set-index computation of line 117 in arithmetic form: the `s` bits
of the address immediately above the `b` block-offset bits. -/
theorem setIdxOf_eq_div_mod (s b addr : Nat) :
    setIdxOf s b addr = (addr / 2 ^ b) % 2 ^ s := by
  have h1 : addr - (tagOf s b addr) <<< (s + b) = addr % 2 ^ (s + b) := by
    rw [tagOf, Nat.shiftRight_eq_div_pow, Nat.shiftLeft_eq,
      Nat.mul_comm (addr / 2 ^ (s + b)) (2 ^ (s + b))]
    have h := Nat.div_add_mod addr (2 ^ (s + b))
    omega
  rw [setIdxOf, h1, Nat.shiftRight_eq_div_pow, Nat.add_comm s b, Nat.pow_add,
    Nat.mod_mul_right_div_self]

/-- C6: for every geometry and address, the decomposition computed at lines
116-117 of `access_data` equals the reference formulas of the spec:
`tag = addr >> (s+b)` and `set_index = (addr >> b) &&& (2^s - 1)`; both
depend only on the address and the geometry. -/
theorem C6_decomposition (s b addr : Nat) :
    tagOf s b addr = addr >>> (s + b) ∧
    setIdxOf s b addr = (addr >>> b) &&& (2 ^ s - 1) := by
  constructor
  · rfl
  · rw [setIdxOf_eq_div_mod, Nat.shiftRight_eq_div_pow,
      Nat.and_pow_two_sub_one_eq_mod]

/-- C1 (evaluation of the code at the failing input): geometry s=1, E=2, b=1;
trace addresses 0, 8, 0 give set 0 the two valid lines ⟨tag 0, lru 0⟩ and
⟨tag 2, lru 0⟩ — the fills never advanced `lru_count` (csim.c increments it
only on hits), so the hit on tag 0 also stamped 0 and both lines are tied.
The fresh tag 4 (address 16) then evicts slot 0, the line holding tag 0,
even though tag 0's most recent access (third in the trace) is more recent
than tag 2's fill (second): the line whose most recent access is oldest,
slot 1, survives, refuting the LRU eviction claim. -/
theorem C1_code_eval :
    (runTrace 1 1 (initState 1 2) [0, 8, 0]).cache =
      [[⟨true, 0, 0⟩, ⟨true, 2, 0⟩], [line0, line0]] ∧
    lineAt (setAt (runTrace 1 1 (initState 1 2) [0, 8, 0, 16]).cache 0) 0 =
      ⟨true, 4, 1⟩ ∧
    lineAt (setAt (runTrace 1 1 (initState 1 2) [0, 8, 0, 16]).cache 0) 1 =
      ⟨true, 2, 0⟩ ∧
    (runTrace 1 1 (initState 1 2) [0, 8, 0, 16]).evict_cnt = 1 := by decide

/-- C2 (evaluation of the code at the failing input): with geometry
s=1, E=1, b=1, a fresh cache and one completed access (a miss that fills a
line) leaves `lru_count` at 0, and two completed accesses (miss then
miss+eviction) still leave it at 0 — the code increments the clock only on
hits, so the clock does not equal the number of completed accesses. -/
theorem C2_code_eval :
    (runTrace 1 1 (initState 1 1) [0]).miss_cnt = 1 ∧
    (runTrace 1 1 (initState 1 1) [0]).lru_count = 0 ∧
    (runTrace 1 1 (initState 1 1) [0, 8]).miss_cnt = 2 ∧
    (runTrace 1 1 (initState 1 1) [0, 8]).lru_count = 0 := by decide

/-- C3 counterexample: an eviction (geometry s=1, E=1, b=1, address 8 after
address 0 filled the set) does increment the eviction counter, but the
evicted line's recency is stamped with the old clock value 0, not with a
newly advanced clock value 1 as the claim states. -/
theorem C3_counterexample :
    (access_data 1 1 8 (runTrace 1 1 (initState 1 1) [0])).evict_cnt =
      (runTrace 1 1 (initState 1 1) [0]).evict_cnt + 1 ∧
    (runTrace 1 1 (initState 1 1) [0]).lru_count = 0 ∧
    ¬ (lineAt (setAt
        (access_data 1 1 8 (runTrace 1 1 (initState 1 1) [0])).cache 0) 0).lru
      = (runTrace 1 1 (initState 1 1) [0]).lru_count + 1 := by decide

/-- C4 counterexample: a hit (geometry s=1, E=1, b=1, address 0 accessed
twice) increments the hit counter and advances the clock to 1, but the hit
line's recency is stamped with the pre-advance value 0, not with the newly
advanced clock value as the claim states. -/
theorem C4_counterexample :
    (access_data 1 1 0 (runTrace 1 1 (initState 1 1) [0])).hit_cnt =
      (runTrace 1 1 (initState 1 1) [0]).hit_cnt + 1 ∧
    (access_data 1 1 0 (runTrace 1 1 (initState 1 1) [0])).lru_count =
      (runTrace 1 1 (initState 1 1) [0]).lru_count + 1 ∧
    ¬ (lineAt (setAt
        (access_data 1 1 0 (runTrace 1 1 (initState 1 1) [0])).cache 0) 0).lru
      = (access_data 1 1 0 (runTrace 1 1 (initState 1 1) [0])).lru_count := by
  decide

/-- C5 counterexample: a cold fill (geometry s=1, E=1, b=1, address 0 on a
fresh cache) increments the miss counter and does not evict, but the filled
line's recency is stamped with the current clock value 0, not with a newly
advanced clock value 1 as the claim states (the clock is not advanced at
all on this path). -/
theorem C5_counterexample :
    (access_data 1 1 0 (initState 1 1)).miss_cnt = 1 ∧
    (access_data 1 1 0 (initState 1 1)).evict_cnt = 0 ∧
    (access_data 1 1 0 (initState 1 1)).lru_count = (initState 1 1).lru_count ∧
    ¬ (lineAt (setAt (access_data 1 1 0 (initState 1 1)).cache 0) 0).lru
      = (initState 1 1).lru_count + 1 := by decide

/-- C8 counterexample: with geometry s=1, E=1, b=1, the two addresses 0 and 8
both map to set 0 and carry exactly E+1 = 2 distinct tags, yet replaying
them from an empty cache produces an eviction — the claim that sequences of
up to E+1 distinct tags cause no eviction is false (a set holds only E
tags). -/
theorem C8_counterexample :
    (∀ a ∈ [0, 8], setIdxOf 1 1 a = 0) ∧
    (([0, 8].map (tagOf 1 1)).dedup).length ≤ 1 + 1 ∧
    ¬ (runTrace 1 1 (initState 1 1) [0, 8]).evict_cnt = 0 := by decide

/-- Reading back the slot just written, in range. -/
theorem getD_set_self {α : Type} (xs : List α) (i : Nat) (a d : α)
    (h : i < xs.length) : (xs.set i a).getD i d = a := by
  rw [List.getD_eq_getElem?_getD, List.getElem?_set_self h]
  rfl

/-- Reading any other slot after a write. -/
theorem getD_set_ne {α : Type} (xs : List α) {i j : Nat} (a d : α)
    (h : i ≠ j) : (xs.set i a).getD j d = xs.getD j d := by
  rw [List.getD_eq_getElem?_getD, List.getElem?_set_ne h,
    ← List.getD_eq_getElem?_getD]

theorem setAt_set_self (c : List CSet) (i : Nat) (cs : CSet)
    (h : i < c.length) : setAt (c.set i cs) i = cs :=
  getD_set_self c i cs [] h

theorem setAt_set_ne (c : List CSet) {i j : Nat} (cs : CSet)
    (h : i ≠ j) : setAt (c.set i cs) j = setAt c j :=
  getD_set_ne c cs [] h

theorem lineAt_set_self (cs : CSet) (i : Nat) (l : Line)
    (h : i < cs.length) : lineAt (cs.set i l) i = l :=
  getD_set_self cs i l line0 h

theorem lineAt_set_ne (cs : CSet) {i j : Nat} (l : Line)
    (h : i ≠ j) : lineAt (cs.set i l) j = lineAt cs j :=
  getD_set_ne cs l line0 h

/-- A set read through `setAt` that is nonempty must be in range. -/
theorem lt_length_of_setAt_ne_nil {c : List CSet} {i : Nat}
    (h : setAt c i ≠ []) : i < c.length := by
  by_contra hc
  exact h (List.getD_eq_default c [] (Nat.le_of_not_lt hc))

/-- A successful scan returns an in-range index. -/
theorem findFirst_some_lt {p : Line → Bool} {cs : CSet} {i : Nat}
    (h : findFirst p cs = some i) : i < cs.length := by
  induction cs generalizing i with
  | nil => exact absurd h (by rw [findFirst]; exact Option.noConfusion)
  | cons l ls ih =>
    rw [findFirst] at h
    by_cases hp : p l = true
    · rw [if_pos hp] at h
      cases h
      simp [List.length_cons]
    · rw [if_neg hp] at h
      rcases Option.map_eq_some'.mp h with ⟨j, hj, hji⟩
      subst hji
      have := ih hj
      simp [List.length_cons]
      omega

/-- A successful scan returns an index satisfying the predicate. -/
theorem findFirst_some_prop {p : Line → Bool} {cs : CSet} {i : Nat}
    (h : findFirst p cs = some i) : p (lineAt cs i) = true := by
  induction cs generalizing i with
  | nil => exact absurd h (by rw [findFirst]; exact Option.noConfusion)
  | cons l ls ih =>
    rw [findFirst] at h
    by_cases hp : p l = true
    · rw [if_pos hp] at h
      cases h
      exact hp
    · rw [if_neg hp] at h
      rcases Option.map_eq_some'.mp h with ⟨j, hj, hji⟩
      subst hji
      exact ih hj

/-- A successful scan returns the FIRST index satisfying the predicate. -/
theorem findFirst_some_first {p : Line → Bool} {cs : CSet} {i : Nat}
    (h : findFirst p cs = some i) :
    ∀ k, k < i → p (lineAt cs k) = false := by
  induction cs generalizing i with
  | nil => exact absurd h (by rw [findFirst]; exact Option.noConfusion)
  | cons l ls ih =>
    rw [findFirst] at h
    by_cases hp : p l = true
    · rw [if_pos hp] at h
      cases h
      intro k hk
      omega
    · rw [if_neg hp] at h
      rcases Option.map_eq_some'.mp h with ⟨j, hj, hji⟩
      subst hji
      intro k hk
      cases k with
      | zero => exact Bool.eq_false_iff.mpr hp
      | succ m =>
        have : lineAt (l :: ls) (m + 1) = lineAt ls m := by
          rw [lineAt, lineAt, List.getD_cons_succ]
        rw [this]
        exact ih hj m (by omega)

/-- A failed scan means no index satisfies the predicate. -/
theorem findFirst_none_forall {p : Line → Bool} {cs : CSet}
    (h : findFirst p cs = none) :
    ∀ i, i < cs.length → p (lineAt cs i) = false := by
  induction cs with
  | nil => intro i hi; exact absurd hi (by simp)
  | cons l ls ih =>
    rw [findFirst] at h
    by_cases hp : p l = true
    · rw [if_pos hp] at h
      exact absurd h (by exact Option.noConfusion)
    · rw [if_neg hp] at h
      have hls : findFirst p ls = none := by
        cases hfl : findFirst p ls with
        | none => rfl
        | some j => rw [hfl] at h; exact absurd h (by simp)
      intro i hi
      cases i with
      | zero => exact Bool.eq_false_iff.mpr hp
      | succ m =>
        have heq : lineAt (l :: ls) (m + 1) = lineAt ls m := by
          rw [lineAt, lineAt, List.getD_cons_succ]
        rw [heq]
        exact ih hls m (by simp at hi; omega)

/-- If no index satisfies the predicate, the scan fails. -/
theorem findFirst_none_of_forall {p : Line → Bool} {cs : CSet}
    (h : ∀ i, i < cs.length → p (lineAt cs i) = false) :
    findFirst p cs = none := by
  induction cs with
  | nil => rw [findFirst]
  | cons l ls ih =>
    rw [findFirst]
    have hp : p l = false := by
      have := h 0 (by simp)
      rwa [lineAt, List.getD_cons_zero] at this
    rw [if_neg (by simp [hp])]
    have : findFirst p ls = none := by
      apply ih
      intro i hi
      have := h (i + 1) (by simp; omega)
      rwa [lineAt, List.getD_cons_succ, ← lineAt] at this
    rw [this]
    rfl

/-- If some in-range index satisfies the predicate, the scan succeeds. -/
theorem findFirst_isSome_of_prop {p : Line → Bool} {cs : CSet} {i : Nat}
    (hi : i < cs.length) (hp : p (lineAt cs i) = true) :
    ∃ k, findFirst p cs = some k := by
  cases hf : findFirst p cs with
  | some k => exact ⟨k, rfl⟩
  | none => exact absurd hp (by rw [findFirst_none_forall hf i hi]; simp)

/-- The eviction loop stays within the indices it has scanned. -/
theorem evictLoop_lt (cs : CSet) (n : Nat) (hn : 0 < n) :
    evictLoop cs n < n := by
  induction n with
  | zero => omega
  | succ m ih =>
    rw [evictLoop]
    by_cases h : (lineAt cs m).lru < (lineAt cs (evictLoop cs m)).lru
    · rw [if_pos h]; omega
    · rw [if_neg h]
      cases Nat.eq_zero_or_pos m with
      | inl h0 => subst h0; rw [evictLoop]; omega
      | inr hm => exact Nat.lt_trans (ih hm) (Nat.lt_succ_self m)

/-- The eviction loop keeps an index of minimal `lru` among those scanned. -/
theorem evictLoop_min (cs : CSet) (n : Nat) :
    ∀ k, k < n → (lineAt cs (evictLoop cs n)).lru ≤ (lineAt cs k).lru := by
  induction n with
  | zero => intro k hk; omega
  | succ m ih =>
    intro k hk
    rw [evictLoop]
    by_cases h : (lineAt cs m).lru < (lineAt cs (evictLoop cs m)).lru
    · rw [if_pos h]
      rcases Nat.lt_succ_iff_lt_or_eq.mp hk with hk2 | hk2
      · exact Nat.le_trans (Nat.le_of_lt h) (ih k hk2)
      · subst hk2; exact Nat.le_refl _
    · rw [if_neg h]
      rcases Nat.lt_succ_iff_lt_or_eq.mp hk with hk2 | hk2
      · exact ih k hk2
      · subst hk2; omega

/-- Every index before the one the eviction loop keeps has strictly larger
`lru`: the loop retains the first minimum it encounters. -/
theorem evictLoop_first (cs : CSet) (n : Nat) :
    ∀ k, k < evictLoop cs n →
      (lineAt cs (evictLoop cs n)).lru < (lineAt cs k).lru := by
  induction n with
  | zero => intro k hk; rw [evictLoop] at hk; omega
  | succ m ih =>
    intro k hk
    rw [evictLoop] at hk ⊢
    by_cases h : (lineAt cs m).lru < (lineAt cs (evictLoop cs m)).lru
    · rw [if_pos h] at hk ⊢
      exact Nat.lt_of_lt_of_le h (evictLoop_min cs m k hk)
    · rw [if_neg h] at hk ⊢
      exact ih k hk

/-- The complete eviction scan returns an in-range index on nonempty sets. -/
theorem evictScan_lt (cs : CSet) (h : cs ≠ []) : evictScan cs < cs.length :=
  evictLoop_lt cs cs.length (by cases cs with
    | nil => exact absurd rfl h
    | cons l ls => simp)

/-- The eviction scan selects a line of minimal `lru`. -/
theorem evictScan_min (cs : CSet) :
    ∀ k, k < cs.length → (lineAt cs (evictScan cs)).lru ≤ (lineAt cs k).lru :=
  evictLoop_min cs cs.length

/-- The eviction scan selects the FIRST line of minimal `lru`. -/
theorem evictScan_first (cs : CSet) :
    ∀ k, k < evictScan cs → (lineAt cs (evictScan cs)).lru < (lineAt cs k).lru :=
  evictLoop_first cs cs.length

/-- Unfolding of `access_data` on the hit path. -/
theorem access_data_hit_eq (s b addr : Nat) (st : SimState) (i : Nat)
    (h : findHit (tagOf s b addr) (setAt st.cache (setIdxOf s b addr)) = some i) :
    access_data s b addr st =
      { st with
        cache := st.cache.set (setIdxOf s b addr)
          ((setAt st.cache (setIdxOf s b addr)).set i
            { lineAt (setAt st.cache (setIdxOf s b addr)) i with
                lru := st.lru_count }),
        hit_cnt := st.hit_cnt + 1,
        lru_count := st.lru_count + 1 } := by
  unfold access_data
  rw [h]

/-- Unfolding of `access_data` on the cold-fill path. -/
theorem access_data_cold_eq (s b addr : Nat) (st : SimState) (i : Nat)
    (hh : findHit (tagOf s b addr) (setAt st.cache (setIdxOf s b addr)) = none)
    (hc : findCold (setAt st.cache (setIdxOf s b addr)) = some i) :
    access_data s b addr st =
      { st with
        cache := st.cache.set (setIdxOf s b addr)
          ((setAt st.cache (setIdxOf s b addr)).set i
            ⟨true, tagOf s b addr, st.lru_count⟩),
        miss_cnt := st.miss_cnt + 1 } := by
  unfold access_data
  rw [hh, hc]

/-- Unfolding of `access_data` on the eviction path. -/
theorem access_data_evict_eq (s b addr : Nat) (st : SimState)
    (hh : findHit (tagOf s b addr) (setAt st.cache (setIdxOf s b addr)) = none)
    (hc : findCold (setAt st.cache (setIdxOf s b addr)) = none) :
    access_data s b addr st =
      { st with
        cache := st.cache.set (setIdxOf s b addr)
          ((setAt st.cache (setIdxOf s b addr)).set
            (evictScan (setAt st.cache (setIdxOf s b addr)))
            { lineAt (setAt st.cache (setIdxOf s b addr))
                (evictScan (setAt st.cache (setIdxOf s b addr))) with
                tag := tagOf s b addr,
                lru := st.lru_count }),
        miss_cnt := st.miss_cnt + 1,
        evict_cnt := st.evict_cnt + 1 } := by
  unfold access_data
  rw [hh, hc]

/-- The hit-scan predicate holds exactly when tag matches and the line is
valid. -/
theorem hitPred_true_iff (t : Nat) (l : Line) :
    ((l.tag == t && l.valid) = true) ↔ (l.tag = t ∧ l.valid = true) := by
  simp [Bool.and_eq_true, beq_iff_eq]

/-- The hit-scan predicate fails exactly when the line does not match. -/
theorem hitPred_false_iff (t : Nat) (l : Line) :
    ((l.tag == t && l.valid) = false) ↔ ¬(l.tag = t ∧ l.valid = true) := by
  rw [← Bool.not_eq_true, hitPred_true_iff]

/-- The cold-scan predicate holds exactly on invalid lines. -/
theorem coldPred_true_iff (l : Line) :
    ((!l.valid) = true) ↔ l.valid = false := by
  simp

/-- The cold-scan predicate fails exactly on valid lines. -/
theorem coldPred_false_iff (l : Line) :
    ((!l.valid) = false) ↔ l.valid = true := by
  simp

/-- C4 (amended): when the hit scan finds a matching line `i`, `access_data`
increments the hit counter, advances the global clock, sets that line's
recency to the clock value read BEFORE the advance (not the newly advanced
value, which the counterexample refutes), and returns without scanning
further (`i` is the first match); the miss and eviction counters, all other
lines of the set, and all other sets are unchanged. -/
theorem C4_hit_path (s b addr : Nat) (st : SimState) (i : Nat)
    (h : findHit (tagOf s b addr) (setAt st.cache (setIdxOf s b addr)) = some i) :
    (access_data s b addr st).hit_cnt = st.hit_cnt + 1 ∧
    (access_data s b addr st).miss_cnt = st.miss_cnt ∧
    (access_data s b addr st).evict_cnt = st.evict_cnt ∧
    (access_data s b addr st).lru_count = st.lru_count + 1 ∧
    lineAt (setAt (access_data s b addr st).cache (setIdxOf s b addr)) i =
      { lineAt (setAt st.cache (setIdxOf s b addr)) i with
          lru := st.lru_count } ∧
    (∀ k, k ≠ i →
      lineAt (setAt (access_data s b addr st).cache (setIdxOf s b addr)) k =
        lineAt (setAt st.cache (setIdxOf s b addr)) k) ∧
    (∀ j, j ≠ setIdxOf s b addr →
      setAt (access_data s b addr st).cache j = setAt st.cache j) ∧
    (lineAt (setAt st.cache (setIdxOf s b addr)) i).tag = tagOf s b addr ∧
    (lineAt (setAt st.cache (setIdxOf s b addr)) i).valid = true ∧
    (∀ k, k < i →
      ¬ ((lineAt (setAt st.cache (setIdxOf s b addr)) k).tag = tagOf s b addr ∧
         (lineAt (setAt st.cache (setIdxOf s b addr)) k).valid = true)) := by
  have hlt : i < (setAt st.cache (setIdxOf s b addr)).length :=
    findFirst_some_lt h
  have hidx : setIdxOf s b addr < st.cache.length := by
    apply lt_length_of_setAt_ne_nil
    intro hnil
    rw [hnil] at hlt
    simp at hlt
  have hprop := findFirst_some_prop h
  have hfirst := findFirst_some_first h
  rw [hitPred_true_iff] at hprop
  rw [access_data_hit_eq s b addr st i h]
  refine ⟨rfl, rfl, rfl, rfl, ?_, ?_, ?_, hprop.1, hprop.2, ?_⟩
  · show lineAt (setAt (st.cache.set (setIdxOf s b addr) _) (setIdxOf s b addr)) i = _
    rw [setAt_set_self _ _ _ hidx, lineAt_set_self _ _ _ hlt]
  · intro k hk
    show lineAt (setAt (st.cache.set (setIdxOf s b addr) _) (setIdxOf s b addr)) k = _
    rw [setAt_set_self _ _ _ hidx, lineAt_set_ne _ _ (Ne.symm hk)]
  · intro j hj
    show setAt (st.cache.set (setIdxOf s b addr) _) j = _
    rw [setAt_set_ne _ _ (Ne.symm hj)]
  · intro k hk
    rw [← hitPred_false_iff]
    exact hfirst k hk

/-- Witness for the amended C4 theorem at the concrete input s=1, E=1, b=1,
with address 0 accessed twice (the second access is the hit). -/
theorem C4_hit_path_witness :
    (access_data 1 1 0 (runTrace 1 1 (initState 1 1) [0])).hit_cnt =
      (runTrace 1 1 (initState 1 1) [0]).hit_cnt + 1 :=
  (C4_hit_path 1 1 0 (runTrace 1 1 (initState 1 1) [0]) 0 (by decide)).1

/-- C5 (amended): when no line matches and the cold scan finds a first
invalid line `i`, `access_data` increments the miss counter, fills that
line — the first invalid line in storage order — setting valid true, the
decomposed tag, and the CURRENT clock value as recency (the clock is not
advanced on this path, refuting the claim's "new clock value"), and returns
without incrementing the eviction counter; all other lines and sets are
unchanged. -/
theorem C5_cold_path (s b addr : Nat) (st : SimState) (i : Nat)
    (hh : findHit (tagOf s b addr) (setAt st.cache (setIdxOf s b addr)) = none)
    (hc : findCold (setAt st.cache (setIdxOf s b addr)) = some i) :
    (access_data s b addr st).miss_cnt = st.miss_cnt + 1 ∧
    (access_data s b addr st).hit_cnt = st.hit_cnt ∧
    (access_data s b addr st).evict_cnt = st.evict_cnt ∧
    (access_data s b addr st).lru_count = st.lru_count ∧
    lineAt (setAt (access_data s b addr st).cache (setIdxOf s b addr)) i =
      ⟨true, tagOf s b addr, st.lru_count⟩ ∧
    (∀ k, k ≠ i →
      lineAt (setAt (access_data s b addr st).cache (setIdxOf s b addr)) k =
        lineAt (setAt st.cache (setIdxOf s b addr)) k) ∧
    (∀ j, j ≠ setIdxOf s b addr →
      setAt (access_data s b addr st).cache j = setAt st.cache j) ∧
    (lineAt (setAt st.cache (setIdxOf s b addr)) i).valid = false ∧
    (∀ k, k < i → (lineAt (setAt st.cache (setIdxOf s b addr)) k).valid = true) := by
  have hlt : i < (setAt st.cache (setIdxOf s b addr)).length :=
    findFirst_some_lt hc
  have hidx : setIdxOf s b addr < st.cache.length := by
    apply lt_length_of_setAt_ne_nil
    intro hnil
    rw [hnil] at hlt
    simp at hlt
  have hprop := findFirst_some_prop hc
  have hfirst := findFirst_some_first hc
  rw [coldPred_true_iff] at hprop
  rw [access_data_cold_eq s b addr st i hh hc]
  refine ⟨rfl, rfl, rfl, rfl, ?_, ?_, ?_, hprop, ?_⟩
  · show lineAt (setAt (st.cache.set (setIdxOf s b addr) _) (setIdxOf s b addr)) i = _
    rw [setAt_set_self _ _ _ hidx, lineAt_set_self _ _ _ hlt]
  · intro k hk
    show lineAt (setAt (st.cache.set (setIdxOf s b addr) _) (setIdxOf s b addr)) k = _
    rw [setAt_set_self _ _ _ hidx, lineAt_set_ne _ _ (Ne.symm hk)]
  · intro j hj
    show setAt (st.cache.set (setIdxOf s b addr) _) j = _
    rw [setAt_set_ne _ _ (Ne.symm hj)]
  · intro k hk
    rw [← coldPred_false_iff]
    exact hfirst k hk

/-- Witness for the amended C5 theorem at the concrete input s=1, E=1, b=1,
address 0 on a fresh cache (a cold fill into line 0 of set 0). -/
theorem C5_cold_path_witness :
    (access_data 1 1 0 (initState 1 1)).miss_cnt =
      (initState 1 1).miss_cnt + 1 :=
  (C5_cold_path 1 1 0 (initState 1 1) 0 (by decide) (by decide)).1

/-- C3 (amended): on an access to a full set with no matching tag,
`access_data` increments the eviction counter (and the miss counter),
selects among the lines of the set the first line attaining the smallest
recency value in storage order (earlier lines have strictly larger
recency), overwrites that line's tag with the decomposed tag, sets its
recency to the CURRENT clock value (the clock is not advanced on this
path, refuting the claim's "new clock value"), and leaves its valid flag
true; all other lines and sets are unchanged. -/
theorem C3_evict_path (s b addr : Nat) (st : SimState)
    (hne : setAt st.cache (setIdxOf s b addr) ≠ [])
    (hh : findHit (tagOf s b addr) (setAt st.cache (setIdxOf s b addr)) = none)
    (hc : findCold (setAt st.cache (setIdxOf s b addr)) = none) :
    (access_data s b addr st).evict_cnt = st.evict_cnt + 1 ∧
    (access_data s b addr st).miss_cnt = st.miss_cnt + 1 ∧
    (access_data s b addr st).hit_cnt = st.hit_cnt ∧
    (access_data s b addr st).lru_count = st.lru_count ∧
    lineAt (setAt (access_data s b addr st).cache (setIdxOf s b addr))
        (evictScan (setAt st.cache (setIdxOf s b addr))) =
      { lineAt (setAt st.cache (setIdxOf s b addr))
          (evictScan (setAt st.cache (setIdxOf s b addr))) with
          tag := tagOf s b addr,
          lru := st.lru_count } ∧
    (lineAt (setAt (access_data s b addr st).cache (setIdxOf s b addr))
        (evictScan (setAt st.cache (setIdxOf s b addr)))).valid = true ∧
    (∀ k, k < (setAt st.cache (setIdxOf s b addr)).length →
      (lineAt (setAt st.cache (setIdxOf s b addr))
          (evictScan (setAt st.cache (setIdxOf s b addr)))).lru ≤
        (lineAt (setAt st.cache (setIdxOf s b addr)) k).lru) ∧
    (∀ k, k < evictScan (setAt st.cache (setIdxOf s b addr)) →
      (lineAt (setAt st.cache (setIdxOf s b addr))
          (evictScan (setAt st.cache (setIdxOf s b addr)))).lru <
        (lineAt (setAt st.cache (setIdxOf s b addr)) k).lru) ∧
    (∀ k, k ≠ evictScan (setAt st.cache (setIdxOf s b addr)) →
      lineAt (setAt (access_data s b addr st).cache (setIdxOf s b addr)) k =
        lineAt (setAt st.cache (setIdxOf s b addr)) k) ∧
    (∀ j, j ≠ setIdxOf s b addr →
      setAt (access_data s b addr st).cache j = setAt st.cache j) := by
  have hlt : evictScan (setAt st.cache (setIdxOf s b addr)) <
      (setAt st.cache (setIdxOf s b addr)).length :=
    evictScan_lt _ hne
  have hidx : setIdxOf s b addr < st.cache.length :=
    lt_length_of_setAt_ne_nil hne
  have hvalid : (lineAt (setAt st.cache (setIdxOf s b addr))
      (evictScan (setAt st.cache (setIdxOf s b addr)))).valid = true := by
    rw [← coldPred_false_iff]
    exact findFirst_none_forall hc _ hlt
  rw [access_data_evict_eq s b addr st hh hc]
  refine ⟨rfl, rfl, rfl, rfl, ?_, ?_, evictScan_min _, evictScan_first _, ?_, ?_⟩
  · show lineAt (setAt (st.cache.set (setIdxOf s b addr) _) (setIdxOf s b addr)) _ = _
    rw [setAt_set_self _ _ _ hidx, lineAt_set_self _ _ _ hlt]
  · show (lineAt (setAt (st.cache.set (setIdxOf s b addr) _) (setIdxOf s b addr)) _).valid = true
    rw [setAt_set_self _ _ _ hidx, lineAt_set_self _ _ _ hlt]
    exact hvalid
  · intro k hk
    show lineAt (setAt (st.cache.set (setIdxOf s b addr) _) (setIdxOf s b addr)) k = _
    rw [setAt_set_self _ _ _ hidx, lineAt_set_ne _ _ (Ne.symm hk)]
  · intro j hj
    show setAt (st.cache.set (setIdxOf s b addr) _) j = _
    rw [setAt_set_ne _ _ (Ne.symm hj)]

/-- Witness for the amended C3 theorem at the concrete input s=1, E=1, b=1,
address 8 after address 0 filled the single line of set 0. -/
theorem C3_evict_path_witness :
    (access_data 1 1 8 (runTrace 1 1 (initState 1 1) [0])).evict_cnt =
      (runTrace 1 1 (initState 1 1) [0]).evict_cnt + 1 :=
  (C3_evict_path 1 1 8 (runTrace 1 1 (initState 1 1) [0])
    (by decide) (by decide) (by decide)).1

/-- Reading a replicated list in range gives the repeated element. -/
theorem getD_replicate_lt {α : Type} (n j : Nat) (x d : α) (h : j < n) :
    (List.replicate n x).getD j d = x := by
  rw [List.getD_eq_getElem?_getD, List.getElem?_replicate, if_pos h]
  rfl

/-- Writing one line into one set never changes the length of any set. -/
theorem setAt_length_set_set (c : List CSet) (idx i : Nat) (l : Line) (j : Nat) :
    (setAt (c.set idx ((setAt c idx).set i l)) j).length = (setAt c j).length := by
  by_cases hij : idx = j
  · subst hij
    by_cases hidx : idx < c.length
    · rw [setAt_set_self _ _ _ hidx, List.length_set]
    · rw [setAt, List.set_eq_of_length_le (Nat.le_of_not_lt hidx), ← setAt]
  · rw [setAt_set_ne _ _ hij]

/-- One access never changes the number of sets or the length of any set. -/
theorem access_cache_shape (s b addr : Nat) (st : SimState) (j : Nat) :
    (access_data s b addr st).cache.length = st.cache.length ∧
    (setAt (access_data s b addr st).cache j).length =
      (setAt st.cache j).length := by
  cases hh : findHit (tagOf s b addr) (setAt st.cache (setIdxOf s b addr)) with
  | some i =>
    rw [access_data_hit_eq s b addr st i hh]
    exact ⟨List.length_set _ _ _, setAt_length_set_set _ _ _ _ _⟩
  | none =>
    cases hc : findCold (setAt st.cache (setIdxOf s b addr)) with
    | some i =>
      rw [access_data_cold_eq s b addr st i hh hc]
      exact ⟨List.length_set _ _ _, setAt_length_set_set _ _ _ _ _⟩
    | none =>
      rw [access_data_evict_eq s b addr st hh hc]
      exact ⟨List.length_set _ _ _, setAt_length_set_set _ _ _ _ _⟩

/-- C10: for every geometry with positive s, E, b and s + b below the 64-bit
address width, and every address, the set index computed by `access_data`
lies in [0, 2^s) — the number of sets `init_cache` allocates — every set
`init_cache` allocates has exactly E lines, every index returned by the hit
scan, the cold scan, or the eviction scan is within the set's length, and
accesses preserve the allocated shape; the ContractViolation condition of
the spec is unreachable. -/
theorem C10_bounds (s b E addr : Nat) (hs : 0 < s) (hE : 0 < E) (hb : 0 < b)
    (hw : s + b < 64) :
    setIdxOf s b addr < 2 ^ s ∧
    (init_cache s E).length = 2 ^ s ∧
    (∀ j, j < 2 ^ s → (setAt (init_cache s E) j).length = E) ∧
    (∀ t cs i, findHit t cs = some i → i < cs.length) ∧
    (∀ cs i, findCold cs = some i → i < cs.length) ∧
    (∀ cs : CSet, cs ≠ [] → evictScan cs < cs.length) ∧
    (∀ st : SimState, ∀ j,
      (access_data s b addr st).cache.length = st.cache.length ∧
      (setAt (access_data s b addr st).cache j).length =
        (setAt st.cache j).length) := by
  refine ⟨?_, ?_, ?_, ?_, ?_, ?_, ?_⟩
  · rw [setIdxOf_eq_div_mod]
    exact Nat.mod_lt _ (Nat.pos_pow_of_pos s (by omega))
  · exact List.length_replicate _ _
  · intro j hj
    rw [init_cache, setAt, getD_replicate_lt _ _ _ _ hj]
    exact List.length_replicate _ _
  · intro t cs i h
    exact findFirst_some_lt h
  · intro cs i h
    exact findFirst_some_lt h
  · intro cs h
    exact evictScan_lt cs h
  · intro st j
    exact access_cache_shape s b addr st j

/-- Witness for the bounds theorem at the concrete geometry s=1, E=1, b=1
and address 0. -/
theorem C10_bounds_witness : setIdxOf 1 1 0 < 2 ^ 1 :=
  (C10_bounds 1 1 1 0 (by decide) (by decide) (by decide) (by decide)).1

/-- After any access on a nonempty target set, some line of that set holds
the decomposed tag and is valid: a hit leaves the matched line in place, a
cold fill installs the tag, and an eviction overwrites a valid line with
the tag. -/
theorem access_installs (s b addr : Nat) (st : SimState)
    (hne : setAt st.cache (setIdxOf s b addr) ≠ []) :
    ∃ k, k < (setAt (access_data s b addr st).cache (setIdxOf s b addr)).length ∧
      (lineAt (setAt (access_data s b addr st).cache (setIdxOf s b addr)) k).tag
        = tagOf s b addr ∧
      (lineAt (setAt (access_data s b addr st).cache (setIdxOf s b addr)) k).valid
        = true := by
  have hidx : setIdxOf s b addr < st.cache.length := lt_length_of_setAt_ne_nil hne
  cases hh : findHit (tagOf s b addr) (setAt st.cache (setIdxOf s b addr)) with
  | some i =>
    have hlt := findFirst_some_lt hh
    have hprop := findFirst_some_prop hh
    rw [hitPred_true_iff] at hprop
    have hset : setAt (access_data s b addr st).cache (setIdxOf s b addr) =
        (setAt st.cache (setIdxOf s b addr)).set i
          { lineAt (setAt st.cache (setIdxOf s b addr)) i with
              lru := st.lru_count } := by
      rw [access_data_hit_eq s b addr st i hh]
      exact setAt_set_self _ _ _ hidx
    rw [hset]
    refine ⟨i, ?_, ?_, ?_⟩
    · rw [List.length_set]; exact hlt
    · rw [lineAt_set_self _ _ _ hlt]; exact hprop.1
    · rw [lineAt_set_self _ _ _ hlt]; exact hprop.2
  | none =>
    cases hc : findCold (setAt st.cache (setIdxOf s b addr)) with
    | some i =>
      have hlt := findFirst_some_lt hc
      have hset : setAt (access_data s b addr st).cache (setIdxOf s b addr) =
          (setAt st.cache (setIdxOf s b addr)).set i
            ⟨true, tagOf s b addr, st.lru_count⟩ := by
        rw [access_data_cold_eq s b addr st i hh hc]
        exact setAt_set_self _ _ _ hidx
      rw [hset]
      refine ⟨i, ?_, ?_, ?_⟩
      · rw [List.length_set]; exact hlt
      · rw [lineAt_set_self _ _ _ hlt]
      · rw [lineAt_set_self _ _ _ hlt]
    | none =>
      have hlt := evictScan_lt _ hne
      have hval : (lineAt (setAt st.cache (setIdxOf s b addr))
          (evictScan (setAt st.cache (setIdxOf s b addr)))).valid = true := by
        rw [← coldPred_false_iff]
        exact findFirst_none_forall hc _ hlt
      have hset : setAt (access_data s b addr st).cache (setIdxOf s b addr) =
          (setAt st.cache (setIdxOf s b addr)).set
            (evictScan (setAt st.cache (setIdxOf s b addr)))
            { lineAt (setAt st.cache (setIdxOf s b addr))
                (evictScan (setAt st.cache (setIdxOf s b addr))) with
                tag := tagOf s b addr,
                lru := st.lru_count } := by
        rw [access_data_evict_eq s b addr st hh hc]
        exact setAt_set_self _ _ _ hidx
      rw [hset]
      refine ⟨evictScan (setAt st.cache (setIdxOf s b addr)), ?_, ?_, ?_⟩
      · rw [List.length_set]; exact hlt
      · rw [lineAt_set_self _ _ _ hlt]
      · rw [lineAt_set_self _ _ _ hlt]; exact hval

/-- C7: for every cache state whose target set is nonempty (E >= 1) and
every address, two back-to-back `access_data` calls on the same address — a
Modify record — make the second call a hit (hit counter up by one, miss and
eviction counters untouched by the second call); and when the address was
not cached before the first call, the first call is a miss (one miss, no
hit), with exactly one eviction if the target set was already full and none
if some line was still invalid. -/
theorem C7_modify (s b addr : Nat) (st : SimState)
    (hne : setAt st.cache (setIdxOf s b addr) ≠ []) :
    ((access_data s b addr (access_data s b addr st)).hit_cnt =
       (access_data s b addr st).hit_cnt + 1 ∧
     (access_data s b addr (access_data s b addr st)).miss_cnt =
       (access_data s b addr st).miss_cnt ∧
     (access_data s b addr (access_data s b addr st)).evict_cnt =
       (access_data s b addr st).evict_cnt) ∧
    ((∀ k, k < (setAt st.cache (setIdxOf s b addr)).length →
        ¬ ((lineAt (setAt st.cache (setIdxOf s b addr)) k).tag = tagOf s b addr ∧
           (lineAt (setAt st.cache (setIdxOf s b addr)) k).valid = true)) →
      (access_data s b addr st).miss_cnt = st.miss_cnt + 1 ∧
      (access_data s b addr st).hit_cnt = st.hit_cnt ∧
      ((∀ k, k < (setAt st.cache (setIdxOf s b addr)).length →
          (lineAt (setAt st.cache (setIdxOf s b addr)) k).valid = true) →
        (access_data s b addr st).evict_cnt = st.evict_cnt + 1) ∧
      ((∃ k, k < (setAt st.cache (setIdxOf s b addr)).length ∧
          (lineAt (setAt st.cache (setIdxOf s b addr)) k).valid = false) →
        (access_data s b addr st).evict_cnt = st.evict_cnt)) := by
  constructor
  · obtain ⟨k, hk, htag, hval⟩ := access_installs s b addr st hne
    obtain ⟨k2, hk2⟩ :=
      @findFirst_isSome_of_prop
        (fun l => l.tag == tagOf s b addr && l.valid)
        (setAt (access_data s b addr st).cache (setIdxOf s b addr)) k hk
        ((hitPred_true_iff (tagOf s b addr) _).mpr ⟨htag, hval⟩)
    rw [access_data_hit_eq s b addr (access_data s b addr st) k2 hk2]
    exact ⟨rfl, rfl, rfl⟩
  · intro hnc
    have hh : findHit (tagOf s b addr) (setAt st.cache (setIdxOf s b addr)) = none := by
      apply findFirst_none_of_forall
      intro i hi
      rw [hitPred_false_iff]
      exact hnc i hi
    cases hc : findCold (setAt st.cache (setIdxOf s b addr)) with
    | some i =>
      rw [access_data_cold_eq s b addr st i hh hc]
      refine ⟨rfl, rfl, ?_, fun _ => rfl⟩
      intro hfull
      have h1 := findFirst_some_prop hc
      rw [coldPred_true_iff] at h1
      rw [hfull i (findFirst_some_lt hc)] at h1
      cases h1
    | none =>
      rw [access_data_evict_eq s b addr st hh hc]
      refine ⟨rfl, rfl, fun _ => rfl, ?_⟩
      rintro ⟨k, hk, hkv⟩
      have := findFirst_none_forall hc k hk
      rw [coldPred_false_iff] at this
      rw [this] at hkv
      cases hkv

/-- Witness for the Modify-record theorem at the concrete input s=1, E=1,
b=1, address 0 on a fresh cache: the second of two back-to-back accesses is
a hit. -/
theorem C7_modify_witness :
    (access_data 1 1 0 (access_data 1 1 0 (initState 1 1))).hit_cnt =
      (access_data 1 1 0 (initState 1 1)).hit_cnt + 1 :=
  (C7_modify 1 1 0 (initState 1 1) (by decide)).1.1

/-- The empty set trivially satisfies the unique-tag invariant. -/
theorem goodSet_nil : goodSet [] := by
  intro i hi
  simp at hi

/-- Out-of-range set reads satisfy the invariant (they read back `[]`). -/
theorem goodSet_oob (c : List CSet) (j : Nat) (h : c.length ≤ j) :
    goodSet (setAt c j) := by
  rw [setAt, List.getD_eq_default c [] h]
  exact goodSet_nil

/-- Updating one line preserves the unique-tag invariant provided the new
line, when valid, has a tag different from every other valid line. -/
theorem goodSet_set (cs : CSet) (i : Nat) (lnew : Line)
    (hgood : goodSet cs)
    (hnew : lnew.valid = true → ∀ k, k < cs.length → k ≠ i →
      (lineAt cs k).valid = true → (lineAt cs k).tag ≠ lnew.tag) :
    goodSet (cs.set i lnew) := by
  intro a ha c hc hac hav hcv
  rw [List.length_set] at ha hc
  by_cases hai : a = i
  · subst hai
    rw [lineAt_set_self _ _ _ ha] at hav ⊢
    rw [lineAt_set_ne _ _ hac] at hcv ⊢
    exact Ne.symm (hnew hav c hc (Ne.symm hac) hcv)
  · by_cases hci : c = i
    · subst hci
      rw [lineAt_set_self _ _ _ hc] at hcv ⊢
      rw [lineAt_set_ne _ _ (Ne.symm hai)] at hav ⊢
      exact hnew hcv a ha hai hav
    · rw [lineAt_set_ne _ _ (Ne.symm hai)] at hav ⊢
      rw [lineAt_set_ne _ _ (Ne.symm hci)] at hcv ⊢
      exact hgood a ha c hc hac hav hcv

/-- One access preserves the unique-tag invariant in every set. -/
theorem access_preserves_goodSet (s b addr : Nat) (st : SimState)
    (hgood : ∀ k, k < st.cache.length → goodSet (setAt st.cache k)) :
    ∀ j, goodSet (setAt (access_data s b addr st).cache j) := by
  intro j
  have hgood2 : ∀ k, goodSet (setAt st.cache k) := by
    intro k
    by_cases hk : k < st.cache.length
    · exact hgood k hk
    · exact goodSet_oob _ _ (Nat.le_of_not_lt hk)
  by_cases hidx : setIdxOf s b addr < st.cache.length
  case neg =>
    -- the write lands out of range and the cache is unchanged
    have hnoop : ∀ cs2 : CSet,
        st.cache.set (setIdxOf s b addr) cs2 = st.cache :=
      fun cs2 => List.set_eq_of_length_le (Nat.le_of_not_lt hidx)
    cases hh : findHit (tagOf s b addr) (setAt st.cache (setIdxOf s b addr)) with
    | some i =>
      rw [access_data_hit_eq s b addr st i hh]
      show goodSet (setAt (st.cache.set (setIdxOf s b addr) _) j)
      rw [hnoop]
      exact hgood2 j
    | none =>
      cases hc : findCold (setAt st.cache (setIdxOf s b addr)) with
      | some i =>
        rw [access_data_cold_eq s b addr st i hh hc]
        show goodSet (setAt (st.cache.set (setIdxOf s b addr) _) j)
        rw [hnoop]
        exact hgood2 j
      | none =>
        rw [access_data_evict_eq s b addr st hh hc]
        show goodSet (setAt (st.cache.set (setIdxOf s b addr) _) j)
        rw [hnoop]
        exact hgood2 j
  case pos =>
    by_cases hj : j = setIdxOf s b addr
    case neg =>
      cases hh : findHit (tagOf s b addr) (setAt st.cache (setIdxOf s b addr)) with
      | some i =>
        rw [access_data_hit_eq s b addr st i hh]
        show goodSet (setAt (st.cache.set (setIdxOf s b addr) _) j)
        rw [setAt_set_ne _ _ (Ne.symm hj)]
        exact hgood2 j
      | none =>
        cases hc : findCold (setAt st.cache (setIdxOf s b addr)) with
        | some i =>
          rw [access_data_cold_eq s b addr st i hh hc]
          show goodSet (setAt (st.cache.set (setIdxOf s b addr) _) j)
          rw [setAt_set_ne _ _ (Ne.symm hj)]
          exact hgood2 j
        | none =>
          rw [access_data_evict_eq s b addr st hh hc]
          show goodSet (setAt (st.cache.set (setIdxOf s b addr) _) j)
          rw [setAt_set_ne _ _ (Ne.symm hj)]
          exact hgood2 j
    case pos =>
      subst hj
      cases hh : findHit (tagOf s b addr) (setAt st.cache (setIdxOf s b addr)) with
      | some i =>
        rw [access_data_hit_eq s b addr st i hh]
        show goodSet (setAt (st.cache.set (setIdxOf s b addr) _) (setIdxOf s b addr))
        rw [setAt_set_self _ _ _ hidx]
        apply goodSet_set _ _ _ (hgood2 _)
        intro hv k hk hki hkv
        have hprop := findFirst_some_prop hh
        rw [hitPred_true_iff] at hprop
        -- the new line keeps the old line's tag and valid bit
        exact hgood2 (setIdxOf s b addr) k hk i (findFirst_some_lt hh) hki hkv hprop.2
      | none =>
        cases hc : findCold (setAt st.cache (setIdxOf s b addr)) with
        | some i =>
          rw [access_data_cold_eq s b addr st i hh hc]
          show goodSet (setAt (st.cache.set (setIdxOf s b addr) _) (setIdxOf s b addr))
          rw [setAt_set_self _ _ _ hidx]
          apply goodSet_set _ _ _ (hgood2 _)
          intro hv k hk hki hkv
          have := findFirst_none_forall hh k hk
          rw [hitPred_false_iff] at this
          intro he
          exact this ⟨he, hkv⟩
        | none =>
          rw [access_data_evict_eq s b addr st hh hc]
          show goodSet (setAt (st.cache.set (setIdxOf s b addr) _) (setIdxOf s b addr))
          rw [setAt_set_self _ _ _ hidx]
          apply goodSet_set _ _ _ (hgood2 _)
          intro hv k hk hki hkv
          have := findFirst_none_forall hh k hk
          rw [hitPred_false_iff] at this
          intro he
          exact this ⟨he, hkv⟩

/-- The freshly initialized cache satisfies the invariant in every set. -/
theorem initState_goodSet (s E : Nat) :
    ∀ k, goodSet (setAt (initState s E).cache k) := by
  intro k
  by_cases hk : k < 2 ^ s
  · show goodSet (setAt (init_cache s E) k)
    rw [init_cache, setAt, getD_replicate_lt _ _ _ _ hk]
    intro i hi j hj hij hiv
    rw [List.length_replicate] at hi
    rw [lineAt, getD_replicate_lt _ _ _ _ hi] at hiv
    cases hiv
  · apply goodSet_oob
    show (init_cache s E).length ≤ k
    rw [init_cache, List.length_replicate]
    omega

/-- Replaying any trace from the fresh cache keeps the invariant. -/
theorem runTrace_goodSet (s b : Nat) (addrs : List Nat) :
    ∀ st : SimState, (∀ k, goodSet (setAt st.cache k)) →
    ∀ j, goodSet (setAt (runTrace s b st addrs).cache j) := by
  induction addrs with
  | nil => intro st h j; exact h j
  | cons a rest ih =>
    intro st h j
    rw [runTrace]
    exact ih (access_data s b a st)
      (access_preserves_goodSet s b a st (fun k _ => h k)) j

/-- C9: after cache initialization and any sequence of `access_data` calls,
within each set every pair of distinct valid lines has distinct tags; and
every single access — whichever path it takes (hit, fill, eviction) —
preserves this invariant from any state satisfying it. -/
theorem C9_unique_tags (s b E : Nat) :
    (∀ addrs : List Nat, ∀ j,
      goodSet (setAt (runTrace s b (initState s E) addrs).cache j)) ∧
    (∀ addr : Nat, ∀ st : SimState,
      (∀ k, k < st.cache.length → goodSet (setAt st.cache k)) →
      ∀ j, goodSet (setAt (access_data s b addr st).cache j)) := by
  constructor
  · intro addrs j
    exact runTrace_goodSet s b addrs (initState s E) (initState_goodSet s E) j
  · intro addr st h j
    exact access_preserves_goodSet s b addr st h j

/-- Witness for the unique-tags theorem: one access on the fresh s=1, E=1,
b=1 cache, checked at set 0. -/
theorem C9_unique_tags_witness :
    goodSet (setAt (access_data 1 1 0 (initState 1 1)).cache 0) :=
  (C9_unique_tags 1 1 1).2 0 (initState 1 1) (by decide) 0

/-- Equation lemma: replaying the empty trace does nothing. -/
theorem runTrace_nil (s b : Nat) (st : SimState) : runTrace s b st [] = st := rfl

/-- Equation lemma: replaying a nonempty trace performs the first access and
continues. -/
theorem runTrace_cons (s b : Nat) (st : SimState) (a : Nat) (rest : List Nat) :
    runTrace s b st (a :: rest) = runTrace s b (access_data s b a st) rest := rfl

/-- Equation lemma for `collect` on the empty list. -/
theorem collect_nil (seen : List Nat) : collect seen [] = seen := rfl

/-- Equation lemma for `collect` on a nonempty list. -/
theorem collect_cons (seen : List Nat) (t : Nat) (ts : List Nat) :
    collect seen (t :: ts) =
      if t ∈ seen then collect seen ts else collect (seen ++ [t]) ts := rfl

/-- An in-range `getD` read is a member of the list. -/
theorem getD_mem {l : List Nat} {n : Nat} (h : n < l.length) : l.getD n 0 ∈ l := by
  rw [List.getD_eq_getElem l 0 h]
  exact List.getElem_mem h

/-- Collecting distinct values never shrinks the accumulator. -/
theorem length_le_collect (ts : List Nat) :
    ∀ seen : List Nat, seen.length ≤ (collect seen ts).length := by
  induction ts with
  | nil => intro seen; rw [collect_nil]
  | cons t rest ih =>
    intro seen
    rw [collect_cons]
    by_cases h : t ∈ seen
    · rw [if_pos h]; exact ih seen
    · rw [if_neg h]
      have h2 := ih (seen ++ [t])
      rw [List.length_append, List.length_cons, List.length_nil] at h2
      omega

/-- The members collected are exactly the accumulator's plus the list's. -/
theorem collect_toFinset (ts : List Nat) :
    ∀ seen : List Nat,
      (collect seen ts).toFinset = seen.toFinset ∪ ts.toFinset := by
  induction ts with
  | nil =>
    intro seen
    rw [collect_nil, List.toFinset_nil, Finset.union_empty]
  | cons t rest ih =>
    intro seen
    rw [collect_cons]
    by_cases h : t ∈ seen
    · rw [if_pos h, ih seen]
      ext x
      simp only [Finset.mem_union, List.mem_toFinset, List.mem_cons]
      constructor
      · rintro (hx | hx)
        · exact Or.inl hx
        · exact Or.inr (Or.inr hx)
      · rintro (hx | hx | hx)
        · exact Or.inl hx
        · exact Or.inl (hx ▸ h)
        · exact Or.inr hx
    · rw [if_neg h, ih (seen ++ [t])]
      ext x
      simp only [Finset.mem_union, List.mem_toFinset, List.mem_append,
        List.mem_cons, List.mem_singleton]
      tauto

/-- Collecting into a duplicate-free accumulator stays duplicate-free. -/
theorem collect_nodup (ts : List Nat) :
    ∀ seen : List Nat, seen.Nodup → (collect seen ts).Nodup := by
  induction ts with
  | nil => intro seen h; exact h
  | cons t rest ih =>
    intro seen h
    rw [collect_cons]
    by_cases hm : t ∈ seen
    · rw [if_pos hm]; exact ih seen h
    · rw [if_neg hm]
      apply ih
      rw [List.nodup_append]
      refine ⟨h, List.nodup_singleton t, ?_⟩
      intro x hx hx2
      rw [List.mem_singleton] at hx2
      subst hx2
      exact hm hx

/-- Collecting from an empty accumulator counts the distinct values of the
list: same length as `dedup`. -/
theorem collect_length_dedup (ts : List Nat) :
    (collect [] ts).length = ts.dedup.length := by
  have h1 : (collect [] ts).Nodup := collect_nodup ts [] List.nodup_nil
  have h2 : (collect [] ts).toFinset = ts.toFinset := by
    rw [collect_toFinset ts [], List.toFinset_nil, Finset.empty_union]
  calc (collect [] ts).length
      = (collect [] ts).dedup.length := by rw [List.dedup_eq_self.mpr h1]
    _ = (collect [] ts).toFinset.card := (List.card_toFinset _).symm
    _ = ts.toFinset.card := by rw [h2]
    _ = ts.dedup.length := List.card_toFinset _

/-- Main induction for the single-set fill argument: replaying accesses that
all map to set `idx`, while the number of distinct tags stays within the
set's capacity, keeps the fill invariant, adds one miss per new distinct
tag, and never evicts. -/
theorem fillStep (s b E idx : Nat) (addrs : List Nat) :
    ∀ (seen : List Nat) (st : SimState),
    fillInv E idx seen st →
    (∀ a ∈ addrs, setIdxOf s b a = idx) →
    (collect seen (addrs.map (tagOf s b))).length ≤ E →
    fillInv E idx (collect seen (addrs.map (tagOf s b))) (runTrace s b st addrs) ∧
    (runTrace s b st addrs).miss_cnt =
      st.miss_cnt + ((collect seen (addrs.map (tagOf s b))).length - seen.length) ∧
    (runTrace s b st addrs).evict_cnt = st.evict_cnt := by
  induction addrs with
  | nil =>
    intro seen st hinv hmap hd
    rw [List.map_nil, collect_nil, runTrace_nil]
    exact ⟨hinv, by omega, rfl⟩
  | cons a rest ih =>
    intro seen st hinv hmap hd
    obtain ⟨hidx, hlen, hsE, hvalid, htags⟩ := hinv
    have hmapa : setIdxOf s b a = idx := hmap a (List.mem_cons_self a rest)
    rw [List.map_cons, collect_cons] at hd ⊢
    rw [runTrace_cons]
    by_cases hmem : tagOf s b a ∈ seen
    case pos =>
      rw [if_pos hmem] at hd ⊢
      obtain ⟨m, hm, hgm⟩ : ∃ m, m < seen.length ∧ seen.getD m 0 = tagOf s b a := by
        obtain ⟨n, hn, hln⟩ := List.mem_iff_getElem.mp hmem
        exact ⟨n, hn, by rw [List.getD_eq_getElem seen 0 hn]; exact hln⟩
      have hmlt : m < (setAt st.cache idx).length := by omega
      have hpred : ((lineAt (setAt st.cache idx) m).tag == tagOf s b a &&
          (lineAt (setAt st.cache idx) m).valid) = true := by
        rw [hitPred_true_iff]
        refine ⟨?_, ?_⟩
        · rw [htags m hm, hgm]
        · exact (hvalid m (by omega)).mpr hm
      obtain ⟨k, hk⟩ := @findFirst_isSome_of_prop
        (fun l => l.tag == tagOf s b a && l.valid) (setAt st.cache idx) m hmlt hpred
      have hk2 : findHit (tagOf s b a) (setAt st.cache (setIdxOf s b a)) = some k := by
        rw [hmapa]; exact hk
      have hkl : k < (setAt st.cache idx).length := findFirst_some_lt hk
      have hstep := access_data_hit_eq s b a st k hk2
      have hsetAt : setAt (access_data s b a st).cache idx =
          (setAt st.cache idx).set k
            { lineAt (setAt st.cache idx) k with lru := st.lru_count } := by
        rw [hstep, hmapa]
        exact setAt_set_self _ _ _ hidx
      have hfields : ∀ j,
          ((lineAt (setAt (access_data s b a st).cache idx) j).valid =
            (lineAt (setAt st.cache idx) j).valid) ∧
          ((lineAt (setAt (access_data s b a st).cache idx) j).tag =
            (lineAt (setAt st.cache idx) j).tag) := by
        intro j
        rw [hsetAt]
        by_cases hjk : j = k
        · subst hjk
          rw [lineAt_set_self _ _ _ hkl]
          exact ⟨rfl, rfl⟩
        · rw [lineAt_set_ne _ _ (Ne.symm hjk)]
          exact ⟨rfl, rfl⟩
      have hinv2 : fillInv E idx seen (access_data s b a st) := by
        refine ⟨?_, ?_, hsE, ?_, ?_⟩
        · rw [(access_cache_shape s b a st 0).1]; exact hidx
        · rw [hsetAt, List.length_set]; exact hlen
        · intro i hi
          rw [(hfields i).1]
          exact hvalid i hi
        · intro i hi
          rw [(hfields i).2]
          exact htags i hi
      have hmiss1 : (access_data s b a st).miss_cnt = st.miss_cnt := by rw [hstep]
      have hevict1 : (access_data s b a st).evict_cnt = st.evict_cnt := by rw [hstep]
      obtain ⟨hf1, hf2, hf3⟩ := ih seen (access_data s b a st) hinv2
        (fun x hx => hmap x (List.mem_cons_of_mem a hx)) hd
      exact ⟨hf1, by rw [hf2, hmiss1], by rw [hf3, hevict1]⟩
    case neg =>
      rw [if_neg hmem] at hd ⊢
      have hmono0 := length_le_collect (List.map (tagOf s b) rest)
        (seen ++ [tagOf s b a])
      have hkE : seen.length < E := by
        rw [List.length_append, List.length_cons, List.length_nil] at hmono0
        omega
      have hinvk : (lineAt (setAt st.cache idx) seen.length).valid = false := by
        cases hval : (lineAt (setAt st.cache idx) seen.length).valid
        · rfl
        · exact absurd ((hvalid seen.length hkE).mp hval) (lt_irrefl _)
      have hcoldk : findCold (setAt st.cache idx) = some seen.length := by
        obtain ⟨k2, hk2⟩ := @findFirst_isSome_of_prop
          (fun l => !l.valid) (setAt st.cache idx) seen.length (by omega)
          (by rw [coldPred_true_iff]; exact hinvk)
        have hp2 := findFirst_some_prop hk2
        rw [coldPred_true_iff] at hp2
        have hfirst2 := findFirst_some_first hk2
        have hge : ¬ (k2 < seen.length) := by
          intro hlt
          have hv2 := (hvalid k2 (by omega)).mpr hlt
          rw [hv2] at hp2
          cases hp2
        have hle : ¬ (seen.length < k2) := by
          intro hlt
          have h3 := hfirst2 seen.length hlt
          rw [coldPred_false_iff] at h3
          rw [h3] at hinvk
          cases hinvk
        have hk2eq : k2 = seen.length := by omega
        rw [← hk2eq]
        exact hk2
      have hh : findHit (tagOf s b a) (setAt st.cache idx) = none := by
        apply findFirst_none_of_forall
        intro i hi
        rw [hitPred_false_iff]
        rintro ⟨hti, hvi⟩
        have hilt := (hvalid i (by omega)).mp hvi
        rw [htags i hilt] at hti
        exact hmem (hti ▸ getD_mem hilt)
      have hh2 : findHit (tagOf s b a) (setAt st.cache (setIdxOf s b a)) = none := by
        rw [hmapa]; exact hh
      have hc2 : findCold (setAt st.cache (setIdxOf s b a)) = some seen.length := by
        rw [hmapa]; exact hcoldk
      have hstep := access_data_cold_eq s b a st seen.length hh2 hc2
      have hsetAt : setAt (access_data s b a st).cache idx =
          (setAt st.cache idx).set seen.length
            ⟨true, tagOf s b a, st.lru_count⟩ := by
        rw [hstep, hmapa]
        exact setAt_set_self _ _ _ hidx
      have hinv2 : fillInv E idx (seen ++ [tagOf s b a]) (access_data s b a st) := by
        refine ⟨?_, ?_, ?_, ?_, ?_⟩
        · rw [(access_cache_shape s b a st 0).1]; exact hidx
        · rw [hsetAt, List.length_set]; exact hlen
        · rw [List.length_append, List.length_cons, List.length_nil]; omega
        · intro i hi
          rw [hsetAt, List.length_append, List.length_cons, List.length_nil]
          by_cases hik : i = seen.length
          · subst hik
            rw [lineAt_set_self _ _ _ (by omega)]
            simp
          · rw [lineAt_set_ne _ _ (Ne.symm hik), hvalid i hi]
            omega
        · intro i hi
          rw [List.length_append, List.length_cons, List.length_nil] at hi
          rw [hsetAt]
          by_cases hik : i = seen.length
          · subst hik
            rw [lineAt_set_self _ _ _ (by omega),
              List.getD_append_right seen [tagOf s b a] 0 seen.length (Nat.le_refl _)]
            rw [Nat.sub_self]
            rfl
          · have hilt : i < seen.length := by omega
            rw [lineAt_set_ne _ _ (Ne.symm hik),
              List.getD_append seen [tagOf s b a] 0 i hilt]
            exact htags i hilt
      have hmiss1 : (access_data s b a st).miss_cnt = st.miss_cnt + 1 := by rw [hstep]
      have hevict1 : (access_data s b a st).evict_cnt = st.evict_cnt := by rw [hstep]
      obtain ⟨hf1, hf2, hf3⟩ := ih (seen ++ [tagOf s b a]) (access_data s b a st)
        hinv2 (fun x hx => hmap x (List.mem_cons_of_mem a hx)) hd
      refine ⟨hf1, ?_, by rw [hf3, hevict1]⟩
      rw [hf2, hmiss1]
      rw [List.length_append, List.length_cons, List.length_nil] at hmono0
      simp only [List.length_append, List.length_cons, List.length_nil]
      omega

/-- C8 (amended): starting from an empty cache, for every sequence of
accesses whose addresses all map to a single set and carry E OR FEWER
distinct tags (the claim's "E+1 or fewer" is refuted by the
counterexample: a set holds only E tags), no eviction occurs — the
eviction counter stays 0 — and the miss counter increases by exactly the
number of distinct tags. -/
theorem C8_no_evict_within_capacity (s b E idx : Nat) (addrs : List Nat)
    (hmap : ∀ a ∈ addrs, setIdxOf s b a = idx)
    (hd : ((addrs.map (tagOf s b)).dedup).length ≤ E) :
    (runTrace s b (initState s E) addrs).evict_cnt = 0 ∧
    (runTrace s b (initState s E) addrs).miss_cnt =
      ((addrs.map (tagOf s b)).dedup).length := by
  cases addrs with
  | nil =>
    rw [runTrace_nil]
    constructor
    · rfl
    · rw [List.map_nil, List.dedup_nil]
      rfl
  | cons a rest =>
    have hidx : idx < 2 ^ s := by
      rw [← hmap a (List.mem_cons_self a rest), setIdxOf_eq_div_mod]
      exact Nat.mod_lt _ (Nat.pos_pow_of_pos s (by omega))
    have hinv0 : fillInv E idx [] (initState s E) := by
      refine ⟨?_, ?_, Nat.zero_le E, ?_, ?_⟩
      · show idx < (init_cache s E).length
        rw [init_cache, List.length_replicate]
        exact hidx
      · show (setAt (init_cache s E) idx).length = E
        rw [init_cache, setAt, getD_replicate_lt _ _ _ _ hidx]
        exact List.length_replicate _ _
      · intro i hi
        show (lineAt (setAt (init_cache s E) idx) i).valid = true ↔
          i < List.length []
        rw [init_cache, setAt, getD_replicate_lt _ _ _ _ hidx, lineAt,
          getD_replicate_lt _ _ _ _ hi]
        simp [line0]
      · intro i hi
        rw [List.length_nil] at hi
        exact absurd hi (by omega)
    obtain ⟨hf1, hf2, hf3⟩ := fillStep s b E idx (a :: rest) [] (initState s E)
      hinv0 hmap (by rw [collect_length_dedup]; exact hd)
    constructor
    · rw [hf3]
      rfl
    · rw [hf2, collect_length_dedup]
      simp only [List.length_nil]
      rw [show (initState s E).miss_cnt = 0 from rfl]
      omega

/-- Witness for the amended single-set capacity theorem: s=1, E=2, b=1,
addresses 0, 8, 0 all map to set 0 with two distinct tags, and no eviction
occurs. -/
theorem C8_no_evict_within_capacity_witness :
    (runTrace 1 1 (initState 1 2) [0, 8, 0]).evict_cnt = 0 :=
  (C8_no_evict_within_capacity 1 1 2 0 [0, 8, 0] (by decide) (by decide)).1
